import Mathlib

/-!
Verification of the SimdutParser text extraction pipeline
(src/simdutparser/parsers/text_parser.py).

The development shallowly embeds the pure core of the parser:
string normalization, the key/value fragment model, the merge
procedure, table and text-block processing, boundary detection and
the per-page extraction loop.  External PDF primitives (text search
returning rectangles, table detection, block retrieval) are modelled
as function-valued fields of a page, matching the spec treatment of
the document access layer as an abstract collaborator.

The file is organised as: definitions, then supporting lemmas, then
one theorem per claim.
-/

/-! ## Python string primitives -/

/-- The whitespace characters recognised by Python `str.strip` and the
regex class used in the source (ASCII fragment). -/
def pyIsSpace (c : Char) : Bool :=
  c = ' ' || c = '\t' || c = '\n' || c = '\r' || c = '\x0b' || c = '\x0c'

/-- Characters of a string with leading and trailing whitespace removed,
embedding Python `str.strip()`. -/
def stripChars (s : List Char) : List Char :=
  ((s.dropWhile pyIsSpace).reverse.dropWhile pyIsSpace).reverse

/-- Python `line.strip()`. -/
def stripStr (s : String) : String :=
  String.mk (stripChars s.data)

/-- Split a character list at every character satisfying `p`, keeping
empty pieces, embedding Python `str.split(c)` semantics. -/
def splitChars (p : Char → Bool) : List Char → List (List Char)
  | [] => [[]]
  | c :: rest =>
      match splitChars p rest with
      | [] => if p c then [[], []] else [[c]]
      | piece :: pieces =>
          if p c then [] :: piece :: pieces else (c :: piece) :: pieces

/-- Python `text.split(chr(10))`: the lines of a text. -/
def splitLines (s : String) : List String :=
  (splitChars (fun c => c = '\n') s.data).map String.mk

/-- Whitespace normalization used throughout the source: collapse every
run of whitespace to a single space and trim both ends.  This embeds
both `_clean_table_cell` (`re.sub` of whitespace runs then `strip`) and
the per-line cleaning in `_process_text_block` (`strip` then `re.sub`);
the two compositions agree and equal joining the whitespace-separated
words with single spaces. -/
def normalizeWS (s : String) : String :=
  String.mk (List.intercalate [' '] ((splitChars pyIsSpace s.data).filter (fun w => w ≠ [])))

/-- Substring containment on character lists. -/
def isSubstr (pat : List Char) : List Char → Bool
  | [] => pat.isEmpty
  | c :: rest => pat.isPrefixOf (c :: rest) || isSubstr pat rest

/-- Search of a compiled pattern in a line: `_compile_pattern` builds a
case-insensitive regex from the escaped stripped literal, so a match is
case-insensitive substring containment of the stripped pattern. -/
def patternSearch (pat : String) (s : String) : Bool :=
  isSubstr ((stripChars pat.data).map Char.toLower) (s.data.map Char.toLower)

/-- Remove every occurrence of `pat` from `s`, left to right (fuel-indexed
structural recursion; the fuel is always at least the length of `s`). -/
def removeOccsAux (pat : List Char) : Nat → List Char → List Char
  | _, [] => []
  | 0, s => s
  | fuel + 1, c :: rest =>
      if pat ≠ [] ∧ pat.isPrefixOf (c :: rest) then
        removeOccsAux pat fuel ((c :: rest).drop pat.length)
      else c :: removeOccsAux pat fuel rest

/-- Python `doc.name.replace(".pdf", "")`: delete every occurrence of
`".pdf"` from the document name. -/
def pdfStem (s : String) : String :=
  String.mk (removeOccsAux ".pdf".data s.data.length s.data)

/-! ## The dictionary model

Python dictionaries are embedded as association lists in insertion
order: assignment updates the value of an existing key in place and
appends a fresh key at the end. -/

/-- A value of a fragment or record: a scalar string, or a list of
strings (a table column). -/
inductive Value where
  | str : String → Value
  | list : List String → Value
deriving DecidableEq, Repr

/-- Records and fragments: insertion-ordered key/value lists. -/
abbrev Dict := List (String × Value)

/-- Dictionary lookup. -/
def dlookup : Dict → String → Option Value
  | [], _ => none
  | (k2, v) :: rest, k => if k2 = k then some v else dlookup rest k

/-- Python dictionary assignment `d[k] = v`: overwrite in place if the
key is present, append at the end otherwise. -/
def pySet : Dict → String → Value → Dict
  | [], k, v => [(k, v)]
  | (k2, v2) :: rest, k, v =>
      if k2 = k then (k2, v) :: rest else (k2, v2) :: pySet rest k v

/-! ## The merger (`_merge_data`) -/

/-- The body of the loop of `_merge_data` for one incoming entry. -/
def mergeStep (existing : Dict) (kv : String × Value) : Dict :=
  match dlookup existing kv.1 with
  | some (Value.list l) =>
      match kv.2 with
      | Value.list l2 => pySet existing kv.1 (Value.list (l ++ l2))
      | Value.str s => pySet existing kv.1 (Value.list (l ++ [s]))
  | some (Value.str _) => pySet existing (kv.1 ++ "_conflict") kv.2
  | none => pySet existing kv.1 kv.2

/-- `_merge_data(existing, new)`: fold the merge step over the incoming
entries in insertion order. -/
def mergeData (existing new : Dict) : Dict :=
  new.foldl mergeStep existing

/-! ## Text block processing (`_process_text_block`) -/

/-- The cleaned lines of a text block: split at newlines, normalize each
line, drop empty lines. -/
def cleanLines (text : String) : List String :=
  ((splitLines text).map normalizeWS).filter (fun l => l ≠ "")

/-- The loop of `_process_text_block`: `i` is the line index, the third
argument is `current_key` (`none` embeds Python `None`), the fourth the
`processed` dictionary.  After the loop, an unpaired pending key is
added with an empty value unless already present. -/
def pairLoop : List String → Nat → Option String → Dict → Dict
  | [], _, currentKey, processed =>
      match currentKey with
      | none => processed
      | some k =>
          if (dlookup processed k).isSome then processed
          else pySet processed k (Value.str "")
  | line :: rest, i, currentKey, processed =>
      if i % 2 = 0 then pairLoop rest (i + 1) (some line) processed
      else
        match currentKey with
        | some k =>
            if k ≠ "" then pairLoop rest (i + 1) none (pySet processed k (Value.str line))
            else pairLoop rest (i + 1) currentKey processed
        | none => pairLoop rest (i + 1) currentKey processed

/-- `_process_text_block(text)`. -/
def processTextBlock (text : String) : Dict :=
  pairLoop (cleanLines text) 0 none []

/-- Modelled from the spec wording of the pairing rule: consume the
cleaned lines two at a time, the first of each pair a key and the second
its value; a final unpaired key is added with an empty value unless that
key was already populated. -/
def pairSeq : List String → Dict → Dict
  | [], d => d
  | [k], d => if (dlookup d k).isSome then d else pySet d k (Value.str "")
  | k :: v :: rest, d => pairSeq rest (pySet d k (Value.str v))

/-! ## Table processing (`_process_table`) -/

/-- Python `zip(*rows)`: transpose a list of rows into the list of
columns, truncating at the shortest row. -/
def zipCols : List (List String) → List (List String)
  | [] => []
  | [r] => r.map (fun c => [c])
  | r :: rest => ((r.zip (zipCols rest)).map (fun p => p.1 :: p.2))

/-- One step of the dictionary comprehension of `_process_table`: skip
headers that are empty after normalization, otherwise assign the
normalized column to the header. -/
def dictStep (d : Dict) (p : String × List String) : Dict :=
  if p.1 ≠ "" then pySet d p.1 (Value.list (p.2.map normalizeWS)) else d

/-- The dictionary comprehension over `zip(headers, columns)`. -/
def dictComp (pairs : List (String × List String)) : Dict :=
  pairs.foldl dictStep []

/-- `_process_table` applied to the extracted cell grid: fewer than two
rows contribute nothing; otherwise row 0 gives the normalized headers
and the remaining rows are transposed into columns. -/
def processTable (data : List (List String)) : Dict :=
  if data.length < 2 then []
  else
    match data with
    | [] => []
    | row0 :: rest => dictComp ((row0.map normalizeWS).zip (zipCols rest))

/-! ## Geometry and the page model -/

/-- A pymupdf rectangle: `x0, y0` the top-left corner, `x1, y1` the
bottom-right corner (y grows downward).  Coordinates are modelled as
rationals; the pipeline only copies and compares them. -/
structure Rect where
  x0 : Rat
  y0 : Rat
  x1 : Rat
  y1 : Rat
deriving DecidableEq, Repr

/-- pymupdf `Rect.intersects`: the two rectangles share a rectangle of
positive area. -/
def intersects (a b : Rect) : Bool :=
  max a.x0 b.x0 < min a.x1 b.x1 && max a.y0 b.y0 < min a.y1 b.y1

/-- A page as seen by the parser: its full text plus the external
document access primitives, given as functions.  `search` embeds
`page.search_for`, whose needle is the start marker (always a string)
or the stop marker (a string or Python `None`, hence an `Option`).
`tables` embeds `page.find_tables(clip=bbox)` as bounding box and cell
grid per table; `blocks` embeds `page.get_text("blocks", clip=bbox)` as
rectangle and text per block. -/
structure Page where
  text : String
  width : Rat
  search : Option String → List Rect
  tables : Rect → List (Rect × List (List String))
  blocks : Rect → List (Rect × String)

/-! ## Boundary location (`_find_section_boundaries`) -/

/-- The generator search for the stop marker: the first following line
containing the base pattern `"section"`. -/
def findStop (lines : List String) : Option String :=
  match lines with
  | [] => none
  | l :: rest => if patternSearch "section" l then some l else findStop rest

/-- The loop of `_find_section_boundaries`: find the first line matching
the section pattern; the stop marker is then searched in the remaining
lines only. -/
def findStart (sectionTitle : String) : List String → Option (String × Option String)
  | [] => none
  | line :: rest =>
      if patternSearch sectionTitle line then some (line, findStop rest)
      else findStart sectionTitle rest

/-- `_find_section_boundaries`: strip each line of the page text, locate
the start marker and the optional stop marker; `none` when no start
marker exists (the boundaries dictionary is empty and falsy). -/
def findSectionBoundaries (sectionTitle text : String) : Option (String × Option String) :=
  findStart sectionTitle ((splitLines text).map stripStr)

/-! ## Region calculation (`_calculate_subsection_bbox`) -/

/-- `_calculate_subsection_bbox`: search for both markers; if either
search yields no rectangle the result is `none`, otherwise the region
spans the full page width from the bottom edge of the first start
rectangle to the top edge of the first stop rectangle (no check that
this region is non-degenerate). -/
def calcSubsectionBbox (search : Option String → List Rect) (pageWidth : Rat)
    (startMarker : String) (stopMarker : Option String) : Option Rect :=
  match search (some startMarker), search stopMarker with
  | [], _ => none
  | _, [] => none
  | s :: _, t :: _ => some { x0 := 0, y0 := s.y1, x1 := pageWidth, y1 := t.y0 }

/-! ## Page content (`_process_page_content`) -/

/-- The body of `_process_page_content` once the external primitives
have produced the clipped tables and blocks: merge the table fragments
first while recording each table bounding box as an exclusion zone,
then merge every text block that is non-empty after stripping and does
not intersect any exclusion zone. -/
def processPageContentCore (tables : List (Rect × List (List String)))
    (blocks : List (Rect × String)) : Dict :=
  let s1 := tables.foldl
    (fun acc t => (mergeData acc.1 (processTable t.2), acc.2 ++ [t.1]))
    (([] : Dict), ([] : List Rect))
  blocks.foldl
    (fun content b =>
      if stripStr b.2 = "" || (s1.2.any (fun z => intersects b.1 z)) then content
      else mergeData content (processTextBlock b.2))
    s1.1

/-- `_process_page_content(page, bbox)`. -/
def processPageContent (page : Page) (bbox : Rect) : Dict :=
  processPageContentCore (page.tables bbox) (page.blocks bbox)

/-! ## The extraction workflow (`extract_section`) and the CLI branch -/

/-- One iteration of the page loop of `extract_section`: skip the page
unless the section pattern occurs in its text, boundaries are found and
a region is computed; otherwise merge the page content into the running
record. -/
def pageStep (sectionTitle : String) (result : Dict) (page : Page) : Dict :=
  if patternSearch sectionTitle page.text then
    match findSectionBoundaries sectionTitle page.text with
    | none => result
    | some (startMarker, stopMarker) =>
        match calcSubsectionBbox page.search page.width startMarker stopMarker with
        | none => result
        | some bbox => mergeData result (processPageContent page bbox)
  else result

/-- `extract_section(pdf_path)`: seed the record with the `name` field
derived from the document name, then fold the page loop over the pages
in document order. -/
def extractSection (docName sectionTitle : String) (pages : List Page) : Dict :=
  pages.foldl (pageStep sectionTitle) [("name", Value.str (pdfStem docName))]

/-- The post-extraction branch of `main`: a truthy (non-empty) record is
exported to CSV and the process exits 0; an empty record raises
`SystemExit(1)` without exporting.  The first component tells whether a
CSV is exported, the second is the exit code. -/
def mainOutcome (data : Dict) : Bool × Nat :=
  if data = [] then (false, 1) else (true, 0)

/-! ## Concrete fixtures used by witnesses -/

/-- A search capability with a start and a stop needle; the first stop
rectangle has its top edge above the bottom edge of the first start
rectangle, so the computed region is degenerate. -/
def searchFixture : Option String → List Rect := fun o =>
  if o = some "start" then [{ x0 := 1, y0 := 2, x1 := 3, y1 := 5 }]
  else if o = some "stop" then [{ x0 := 0, y0 := 2, x1 := 4, y1 := 6 }]
  else []

/-- A page whose text contains a section-pattern line with no later
base-pattern line, and whose searches yield no rectangles. -/
def pageNoStop : Page where
  text := "SECTION 14 shipping info\nno further marker here"
  width := 100
  search := fun _ => []
  tables := fun _ => []
  blocks := fun _ => []

/-- A page whose text does not contain the section label. -/
def pageNoMatch : Page where
  text := "hello world"
  width := 100
  search := fun _ => []
  tables := fun _ => []
  blocks := fun _ => []

/-! ## Supporting lemmas: dictionaries and merging -/

theorem dlookup_pySet_self (d : Dict) (k : String) (v : Value) :
    dlookup (pySet d k v) k = some v := by
  induction d with
  | nil => simp [pySet, dlookup]
  | cons p rest ih =>
      by_cases h : p.1 = k
      · simp [pySet, dlookup, h]
      · simp [pySet, dlookup, h, ih]

theorem dlookup_pySet_ne (d : Dict) (k k2 : String) (v : Value) (h : k2 ≠ k) :
    dlookup (pySet d k v) k2 = dlookup d k2 := by
  have h2 : k ≠ k2 := Ne.symm h
  induction d with
  | nil => simp [pySet, dlookup, h2]
  | cons p rest ih =>
      by_cases hp : p.1 = k
      · simp [pySet, dlookup, hp, h2]
      · simp only [pySet, if_neg hp]
        by_cases hp2 : p.1 = k2 <;> simp [dlookup, hp2, ih]

theorem mergeData_cons (existing : Dict) (p : String × Value) (rest : Dict) :
    mergeData existing (p :: rest) = mergeData (mergeStep existing p) rest := rfl

theorem ne_append_conflict (k b : String) (hlen : k.length ≠ b.length + 9) :
    k ≠ b ++ "_conflict" := by
  intro he
  apply hlen
  have := congrArg String.length he
  simpa [String.length_append] using this

theorem self_ne_append_conflict (k : String) : k ≠ k ++ "_conflict" := by
  apply ne_append_conflict
  omega

/-- A scalar entry is never overwritten by a merge, and a key that is
not the derived conflict key of any incoming key is never the target of
a conflict write. -/
theorem mergeData_scalar_preserved (new : Dict) (existing : Dict) (k s : String)
    (hconf : ∀ q ∈ new, k ≠ q.1 ++ "_conflict")
    (hs : dlookup existing k = some (Value.str s)) :
    dlookup (mergeData existing new) k = some (Value.str s) := by
  induction new generalizing existing with
  | nil => simpa [mergeData] using hs
  | cons p rest ih =>
      rw [mergeData_cons]
      refine ih _ (fun q hq => hconf q (List.mem_cons_of_mem _ hq)) ?_
      by_cases hbk : p.1 = k
      · rw [mergeStep, hbk, hs]
        rw [dlookup_pySet_ne _ _ _ _ (self_ne_append_conflict k)]
        exact hs
      · have hne : k ≠ p.1 := fun he => hbk he.symm
        rw [mergeStep]
        rcases hlb : dlookup existing p.1 with _ | v2
        · rw [dlookup_pySet_ne _ _ _ _ hne]; exact hs
        · rcases v2 with s2 | l2
          · rw [dlookup_pySet_ne _ _ _ _ (hconf p (List.mem_cons_self _ _))]
            exact hs
          · rcases p2 : p.2 with s3 | l3 <;>
              simpa [p2, dlookup_pySet_ne _ _ _ _ hne] using hs

/-- A list entry only grows through a merge, provided the key is not the
derived conflict key of any incoming key: afterwards the key holds a
list extending the old one. -/
theorem mergeData_list_grows (new : Dict) (existing : Dict) (k : String) (l : List String)
    (hconf : ∀ q ∈ new, k ≠ q.1 ++ "_conflict")
    (hl : dlookup existing k = some (Value.list l)) :
    ∃ l2, dlookup (mergeData existing new) k = some (Value.list (l ++ l2)) := by
  induction new generalizing existing l with
  | nil => exact ⟨[], by simpa [mergeData] using hl⟩
  | cons p rest ih =>
      rw [mergeData_cons]
      by_cases hbk : p.1 = k
      · rcases p2 : p.2 with s3 | l3
        · have hstep : dlookup (mergeStep existing p) k = some (Value.list (l ++ [s3])) := by
            rw [mergeStep, hbk, hl, p2]
            exact dlookup_pySet_self _ _ _
          rcases ih _ _ (fun q hq => hconf q (List.mem_cons_of_mem _ hq)) hstep with ⟨l2, h2⟩
          exact ⟨[s3] ++ l2, by simpa [List.append_assoc] using h2⟩
        · have hstep : dlookup (mergeStep existing p) k = some (Value.list (l ++ l3)) := by
            rw [mergeStep, hbk, hl, p2]
            exact dlookup_pySet_self _ _ _
          rcases ih _ _ (fun q hq => hconf q (List.mem_cons_of_mem _ hq)) hstep with ⟨l2, h2⟩
          exact ⟨l3 ++ l2, by simpa [List.append_assoc] using h2⟩
      · have hne : k ≠ p.1 := fun he => hbk he.symm
        have hstep : dlookup (mergeStep existing p) k = some (Value.list l) := by
          rw [mergeStep]
          rcases hlb : dlookup existing p.1 with _ | v2
          · rw [dlookup_pySet_ne _ _ _ _ hne]; exact hl
          · rcases v2 with s2 | l2
            · rw [dlookup_pySet_ne _ _ _ _ (hconf p (List.mem_cons_self _ _))]
              exact hl
            · rcases p2 : p.2 with s3 | l3 <;>
                simpa [p2, dlookup_pySet_ne _ _ _ _ hne] using hl
        exact ih _ _ (fun q hq => hconf q (List.mem_cons_of_mem _ hq)) hstep

/-! ## Supporting lemmas: text block pairing -/

theorem pairLoop_eq_pairSeq (ls : List String) (i : Nat) (d : Dict)
    (h : ∀ l ∈ ls, l ≠ "") (hi : i % 2 = 0) :
    pairLoop ls i none d = pairSeq ls d := by
  match ls with
  | [] => rfl
  | [k] => simp [pairLoop, pairSeq, hi]
  | k :: v :: rest =>
      have hk : k ≠ "" := h k (by simp)
      have hodd : ¬ (i + 1) % 2 = 0 := by omega
      have ih := pairLoop_eq_pairSeq rest (i + 2) (pySet d k (Value.str v))
        (fun l hl => h l (by simp [hl])) (by omega)
      simp only [pairLoop, if_pos hi, if_neg hodd, if_pos hk]
      simpa using ih
termination_by ls.length

/-- Keys already absent both from the accumulator and from the lines are
absent from the result of the pairing. -/
theorem pairSeq_lookup_none (ls : List String) (d : Dict) (k : String)
    (hmem : k ∉ ls) (hd : dlookup d k = none) :
    dlookup (pairSeq ls d) k = none := by
  match ls with
  | [] => exact hd
  | [k2] =>
      have hne : k ≠ k2 := by intro he; exact hmem (by simp [he])
      simp only [pairSeq]
      by_cases hs : (dlookup d k2).isSome
      · simpa [hs] using hd
      · simpa [hs, dlookup_pySet_ne _ _ _ _ hne] using hd
  | k2 :: v :: rest =>
      have hne : k ≠ k2 := by intro he; exact hmem (by simp [he])
      have hmem2 : k ∉ rest := fun hr => hmem (by simp [hr])
      simp only [pairSeq]
      exact pairSeq_lookup_none rest _ k hmem2
        (by rw [dlookup_pySet_ne _ _ _ _ hne]; exact hd)
termination_by ls.length

/-- Lines that never mention a key leave its binding unchanged. -/
theorem pairSeq_lookup_preserved (ls : List String) (d : Dict) (k : String)
    (hmem : k ∉ ls) :
    dlookup (pairSeq ls d) k = dlookup d k := by
  match ls with
  | [] => rfl
  | [k2] =>
      have hne : k ≠ k2 := by intro he; exact hmem (by simp [he])
      simp only [pairSeq]
      by_cases hs : (dlookup d k2).isSome
      · simp [hs]
      · simp [hs, dlookup_pySet_ne _ _ _ _ hne]
  | k2 :: v :: rest =>
      have hne : k ≠ k2 := by intro he; exact hmem (by simp [he])
      have hmem2 : k ∉ rest := fun hr => hmem (by simp [hr])
      simp only [pairSeq]
      rw [pairSeq_lookup_preserved rest _ k hmem2, dlookup_pySet_ne _ _ _ _ hne]
termination_by ls.length

/-- If no completed pair of the lines has the key `k` and `k` is already
bound in the accumulator, pairing leaves the binding of `k` unchanged:
assignments only happen at the keys of completed pairs, and the final
trailing rule never overwrites a key that is already present. -/
theorem pairSeq_lookup_of_isSome (ls : List String) (d : Dict) (k : String)
    (hkey : ∀ m, m % 2 = 0 → m + 1 < ls.length → ls.getD m "" ≠ k)
    (hd : (dlookup d k).isSome) :
    dlookup (pairSeq ls d) k = dlookup d k := by
  match ls with
  | [] => rfl
  | [x] =>
      simp only [pairSeq]
      by_cases hx : (dlookup d x).isSome
      · rw [if_pos hx]
      · rw [if_neg hx]
        have hne : k ≠ x := by
          intro he
          subst he
          exact hx hd
        exact dlookup_pySet_ne _ _ _ _ hne
  | x :: y :: rest =>
      have hx : x ≠ k := hkey 0 rfl (by simp only [List.length_cons]; omega)
      have hne : k ≠ x := Ne.symm hx
      have hpre : dlookup (pySet d x (Value.str y)) k = dlookup d k :=
        dlookup_pySet_ne _ _ _ _ hne
      have ih := pairSeq_lookup_of_isSome rest (pySet d x (Value.str y)) k
        (fun m hm hmlt => by
          have h2 := hkey (m + 2) (by omega)
            (by simp only [List.length_cons]; omega)
          simpa using h2)
        (by rw [hpre]; exact hd)
      simp only [pairSeq]
      rw [ih, hpre]
termination_by ls.length

/-- Pairing distributes over an even-length prefix of the lines. -/
theorem pairSeq_append_even (a r : List String) (d : Dict)
    (h : a.length % 2 = 0) :
    pairSeq (a ++ r) d = pairSeq r (pairSeq a d) := by
  match a with
  | [] => rfl
  | [x] => simp at h
  | x :: y :: a2 =>
      have ih := pairSeq_append_even a2 r (pySet d x (Value.str y))
        (by simp only [List.length_cons] at h; omega)
      simpa [pairSeq] using ih
termination_by a.length

/-! ## Supporting lemmas: tables -/

theorem getD_mem {l : List String} {j : Nat} (h : j < l.length) (d : String) :
    l.getD j d ∈ l := by
  rw [List.getD_eq_getElem l d h]
  exact List.getElem_mem h

theorem zipCols_length (rows : List (List String)) (w : Nat)
    (hne : rows ≠ []) (hrect : ∀ r ∈ rows, r.length = w) :
    (zipCols rows).length = w := by
  match rows with
  | [] => exact absurd rfl hne
  | [r] =>
      simp only [zipCols, List.length_map]
      exact hrect r (by simp)
  | r :: r2 :: rest =>
      have ih := zipCols_length (r2 :: rest) w (by simp)
        (fun q hq => hrect q (List.mem_cons_of_mem _ hq))
      have hr : r.length = w := hrect r (by simp)
      simp only [zipCols, List.length_map, List.length_zip, ih, hr, min_self]
termination_by rows.length

theorem zipCols_getElem (rows : List (List String)) (w j : Nat)
    (hne : rows ≠ []) (hrect : ∀ r ∈ rows, r.length = w) (hj : j < w) :
    (zipCols rows)[j]? = some (rows.map (fun r => r.getD j "")) := by
  match rows with
  | [] => exact absurd rfl hne
  | [r] =>
      have hr : j < r.length := by rw [hrect r (by simp)]; exact hj
      simp only [zipCols, List.getElem?_map, List.getElem?_eq_getElem hr]
      have hget : r.getD j "" = r[j] := List.getD_eq_getElem r "" hr
      rw [List.map_cons, List.map_nil, hget]
      rfl
  | r :: r2 :: rest =>
      have ih := zipCols_getElem (r2 :: rest) w j (by simp)
        (fun q hq => hrect q (List.mem_cons_of_mem _ hq)) hj
      have hr : j < r.length := by rw [hrect r (by simp)]; exact hj
      have hzip : ((r.zip (zipCols (r2 :: rest))))[j]? =
          some (r.getD j "", (r2 :: rest).map (fun q => q.getD j "")) := by
        rw [List.getElem?_zip_eq_some]
        refine ⟨?_, ih⟩
        rw [List.getElem?_eq_getElem hr, List.getD_eq_getElem r "" hr]
      show ((r.zip (zipCols (r2 :: rest))).map (fun p => p.1 :: p.2))[j]? = _
      rw [List.getElem?_map, hzip]
      simp
termination_by rows.length

theorem dictFold_preserved (ps : List (String × List String)) (d : Dict) (h : String)
    (hmem : ∀ q ∈ ps, q.1 ≠ h) :
    dlookup (ps.foldl dictStep d) h = dlookup d h := by
  induction ps generalizing d with
  | nil => rfl
  | cons q rest ih =>
      have hq : q.1 ≠ h := hmem q (by simp)
      have hrest : ∀ p ∈ rest, p.1 ≠ h := fun p hp => hmem p (by simp [hp])
      rw [List.foldl_cons, ih _ hrest]
      by_cases hq1 : q.1 = ""
      · simp [dictStep, hq1]
      · simp only [dictStep, if_pos (by exact hq1)]
        exact dlookup_pySet_ne _ _ _ _ (Ne.symm hq)

theorem dictFold_at (p1 p2 : List (String × List String)) (h : String)
    (col : List String) (d : Dict) (hne : h ≠ "")
    (hlater : ∀ q ∈ p2, q.1 ≠ h) :
    dlookup ((p1 ++ (h, col) :: p2).foldl dictStep d) h
      = some (Value.list (col.map normalizeWS)) := by
  rw [List.foldl_append, List.foldl_cons]
  rw [dictFold_preserved p2 _ h hlater]
  simp only [dictStep, if_pos hne]
  exact dlookup_pySet_self _ _ _

theorem dictFold_keys (ps : List (String × List String)) (d : Dict) (k : String)
    (hs : (dlookup (ps.foldl dictStep d) k).isSome) :
    (dlookup d k).isSome ∨ (k ≠ "" ∧ k ∈ ps.map Prod.fst) := by
  induction ps generalizing d with
  | nil => exact Or.inl hs
  | cons q rest ih =>
      rw [List.foldl_cons] at hs
      rcases ih _ hs with hd | hk
      · by_cases hq1 : q.1 = ""
        · simp only [dictStep, hq1] at hd
          simp at hd
          exact Or.inl hd
        · by_cases hqk : q.1 = k
          · exact Or.inr ⟨by rw [← hqk]; exact hq1, by simp [← hqk]⟩
          · simp only [dictStep, if_pos (by exact hq1)] at hd
            rw [dlookup_pySet_ne _ _ _ _ (Ne.symm hqk)] at hd
            exact Or.inl hd
      · exact Or.inr ⟨hk.1, by simp [hk.2]⟩

/-! ## Supporting lemmas: merge step equations -/

theorem mergeStep_absent (existing : Dict) (k : String) (v : Value)
    (h : dlookup existing k = none) :
    mergeStep existing (k, v) = pySet existing k v := by
  simp only [mergeStep, h]

theorem mergeStep_list_list (existing : Dict) (k : String) (l l2 : List String)
    (h : dlookup existing k = some (Value.list l)) :
    mergeStep existing (k, Value.list l2) = pySet existing k (Value.list (l ++ l2)) := by
  simp only [mergeStep, h]

theorem mergeStep_list_str (existing : Dict) (k : String) (l : List String) (s : String)
    (h : dlookup existing k = some (Value.list l)) :
    mergeStep existing (k, Value.str s) = pySet existing k (Value.list (l ++ [s])) := by
  simp only [mergeStep, h]

theorem mergeStep_scalar (existing : Dict) (k s : String) (v : Value)
    (h : dlookup existing k = some (Value.str s)) :
    mergeStep existing (k, v) = pySet existing (k ++ "_conflict") v := by
  simp only [mergeStep, h]

/-! ## Supporting lemmas: cleaned lines and the text block bridge -/

theorem cleanLines_ne_empty (text : String) : ∀ l ∈ cleanLines text, l ≠ "" := by
  intro l hl
  have := List.of_mem_filter hl
  simpa using this

theorem processTextBlock_eq_pairSeq (text : String) :
    processTextBlock text = pairSeq (cleanLines text) [] :=
  pairLoop_eq_pairSeq (cleanLines text) 0 [] (cleanLines_ne_empty text) rfl

/-! ## Supporting lemmas: page content and the page loop -/

theorem tablesFold_zones (tables : List (Rect × List (List String)))
    (c : Dict) (z : List Rect) :
    (tables.foldl (fun acc t => (mergeData acc.1 (processTable t.2), acc.2 ++ [t.1]))
      (c, z)).2 = z ++ tables.map Prod.fst := by
  induction tables generalizing c z with
  | nil => simp
  | cons t rest ih =>
      rw [List.foldl_cons, ih]
      simp

theorem calcSubsectionBbox_noStop (search : Option String → List Rect) (w : Rat)
    (startM : String) (h : search none = []) :
    calcSubsectionBbox search w startM none = none := by
  rcases hs : search (some startM) with _ | ⟨a, as⟩ <;> simp [calcSubsectionBbox, hs, h]

theorem pageStep_noMatch (sectionTitle : String) (r : Dict) (page : Page)
    (h : patternSearch sectionTitle page.text = false) :
    pageStep sectionTitle r page = r := by
  simp [pageStep, h]

theorem foldl_pageStep_const (sectionTitle : String) (pages : List Page) (init : Dict)
    (h : ∀ p ∈ pages, patternSearch sectionTitle p.text = false) :
    pages.foldl (pageStep sectionTitle) init = init := by
  induction pages generalizing init with
  | nil => rfl
  | cons p rest ih =>
      rw [List.foldl_cons, pageStep_noMatch sectionTitle init p (h p (by simp))]
      exact ih init (fun q hq => h q (by simp [hq]))

theorem name_ne_conflict (b : String) : "name" ≠ b ++ "_conflict" := by
  apply ne_append_conflict
  have h4 : ("name" : String).length = 4 := rfl
  omega

theorem pageStep_name_preserved (sectionTitle : String) (acc : Dict) (p : Page) (s : String)
    (h : dlookup acc "name" = some (Value.str s)) :
    dlookup (pageStep sectionTitle acc p) "name" = some (Value.str s) := by
  unfold pageStep
  by_cases hm : patternSearch sectionTitle p.text
  · rw [if_pos hm]
    rcases hfb : findSectionBoundaries sectionTitle p.text with _ | ⟨sm, stm⟩
    · exact h
    · dsimp only
      rcases hbb : calcSubsectionBbox p.search p.width sm stm with _ | bbox
      · exact h
      · dsimp only
        exact mergeData_scalar_preserved _ acc "name" s
          (fun q _ => name_ne_conflict q.1) h
  · rw [if_neg hm]; exact h

theorem foldl_pageStep_name (sectionTitle : String) (pages : List Page) (acc : Dict) (s : String)
    (h : dlookup acc "name" = some (Value.str s)) :
    dlookup (pages.foldl (pageStep sectionTitle) acc) "name" = some (Value.str s) := by
  induction pages generalizing acc with
  | nil => exact h
  | cons p rest ih =>
      rw [List.foldl_cons]
      exact ih _ (pageStep_name_preserved sectionTitle acc p s h)

/-! ## Claim theorems -/

/-- Claim C1: `_merge_data` maps each incoming entry as follows: an
absent key is inserted as-is; list meets list by concatenation (length
the sum of the lengths); list meets scalar by appending the scalar; a
scalar entry is never overwritten and the incoming value is stored under
the derived key obtained by appending `"_conflict"`, overwriting any
prior value stored there. -/
theorem claim_C1 (existing : Dict) (k : String) (v : Value) :
    (dlookup existing k = none →
      mergeData existing [(k, v)] = pySet existing k v) ∧
    (∀ l l2, dlookup existing k = some (Value.list l) → v = Value.list l2 →
      dlookup (mergeData existing [(k, v)]) k = some (Value.list (l ++ l2)) ∧
      (l ++ l2).length = l.length + l2.length) ∧
    (∀ l s, dlookup existing k = some (Value.list l) → v = Value.str s →
      dlookup (mergeData existing [(k, v)]) k = some (Value.list (l ++ [s]))) ∧
    (∀ s, dlookup existing k = some (Value.str s) →
      dlookup (mergeData existing [(k, v)]) k = some (Value.str s) ∧
      dlookup (mergeData existing [(k, v)]) (k ++ "_conflict") = some v) := by
  have hone : mergeData existing [(k, v)] = mergeStep existing (k, v) := rfl
  refine ⟨?_, ?_, ?_, ?_⟩
  · intro h
    rw [hone, mergeStep_absent existing k v h]
  · intro l l2 hl hv
    subst hv
    rw [hone, mergeStep_list_list existing k l l2 hl]
    exact ⟨dlookup_pySet_self _ _ _, by simp⟩
  · intro l s hl hv
    subst hv
    rw [hone, mergeStep_list_str existing k l s hl]
    exact dlookup_pySet_self _ _ _
  · intro s hs
    rw [hone, mergeStep_scalar existing k s v hs]
    constructor
    · rw [dlookup_pySet_ne _ _ _ _ (self_ne_append_conflict k)]
      exact hs
    · exact dlookup_pySet_self _ _ _

/-- Witness for C1: the four merge cases at concrete inputs; the last
conjunct also shows a prior conflict value being overwritten. -/
theorem claim_C1_witness :
    mergeData [("A", Value.str "x")] [("B", Value.str "y")]
      = pySet [("A", Value.str "x")] "B" (Value.str "y") ∧
    dlookup (mergeData [("K", Value.list ["a"])] [("K", Value.list ["b", "c"])]) "K"
      = some (Value.list (["a"] ++ ["b", "c"])) ∧
    dlookup (mergeData [("K", Value.list ["a"])] [("K", Value.str "s")]) "K"
      = some (Value.list (["a"] ++ ["s"])) ∧
    (dlookup (mergeData [("X", Value.str "a"), ("X_conflict", Value.str "old")]
        [("X", Value.str "b")]) "X" = some (Value.str "a") ∧
     dlookup (mergeData [("X", Value.str "a"), ("X_conflict", Value.str "old")]
        [("X", Value.str "b")]) ("X" ++ "_conflict") = some (Value.str "b")) :=
  ⟨(claim_C1 [("A", Value.str "x")] "B" (Value.str "y")).1 (by decide),
   ((claim_C1 [("K", Value.list ["a"])] "K" (Value.list ["b", "c"])).2.1
      ["a"] ["b", "c"] (by decide) rfl).1,
   (claim_C1 [("K", Value.list ["a"])] "K" (Value.str "s")).2.2.1
      ["a"] "s" (by decide) rfl,
   (claim_C1 [("X", Value.str "a"), ("X_conflict", Value.str "old")] "X"
      (Value.str "b")).2.2.2 "a" (by decide)⟩

/-- Counterexample to C4 as stated: after merging `X: "a"` with an
incoming list under `X`, the derived key holds the list `["l1"]`; a
further merge of a scalar under `X` replaces that list wholesale by the
scalar `"b"`, so a list-valued key does not always only grow. -/
theorem claim_C4_counterexample :
    dlookup (mergeData [("X", Value.str "a")] [("X", Value.list ["l1"])]) "X_conflict"
      = some (Value.list ["l1"]) ∧
    dlookup (mergeData (mergeData [("X", Value.str "a")] [("X", Value.list ["l1"])])
        [("X", Value.str "b")]) "X_conflict"
      = some (Value.str "b") := by decide

/-- Claim C4 as amended: a key holding a list only grows through merges
(the old list stays a prefix and the value stays a list) provided the
key is not the derived conflict key of any incoming key; without that
proviso the conflict rule can replace the list (see the
counterexample). -/
theorem claim_C4 (existing new : Dict) (k : String) (l : List String)
    (hconf : ∀ q ∈ new, k ≠ q.1 ++ "_conflict")
    (hl : dlookup existing k = some (Value.list l)) :
    ∃ l2, dlookup (mergeData existing new) k = some (Value.list (l ++ l2)) :=
  mergeData_list_grows new existing k l hconf hl

/-- Witness for C4: a concrete record through a merge that both extends
the tracked list and triggers an unrelated conflict write. -/
theorem claim_C4_witness :
    ∃ l2, dlookup (mergeData [("L", Value.list ["a"]), ("M", Value.str "m")]
        [("M", Value.str "x"), ("L", Value.str "y")]) "L"
      = some (Value.list (["a"] ++ l2)) :=
  claim_C4 [("L", Value.list ["a"]), ("M", Value.str "m")]
    [("M", Value.str "x"), ("L", Value.str "y")] "L" ["a"]
    (by decide) (by decide)

/-- Claim C5: `_process_text_block` splits into lines, normalizes,
drops empty lines, and then pairs the cleaned lines sequentially, an
even-indexed line a key and the following line its value, a final
unpaired key receiving the empty value unless already populated (the
function `pairSeq` is that pairing, written from the spec wording); in
particular the lines Name, Acme, Date give Name: Acme and Date: empty. -/
theorem claim_C5 :
    (∀ text, processTextBlock text = pairSeq (cleanLines text) []) ∧
    processTextBlock "Name\nAcme\nDate"
      = [("Name", Value.str "Acme"), ("Date", Value.str "")] := by
  constructor
  · exact processTextBlock_eq_pairSeq
  · decide

/-- Counterexample to C9 as stated: the `name` field is not the filename
without its extension; it is the document name with every occurrence of
`".pdf"` deleted.  For the filename `a.pdf.pdf` the filename without its
extension is `a.pdf`, but the code produces `a`. -/
theorem claim_C9_counterexample :
    extractSection "a.pdf.pdf" "Section 14" [] = [("name", Value.str "a")] ∧
    ("a" : String) ≠ "a.pdf" := by decide

/-- Claim C9 as amended: for every document the record contains a `name`
field holding the document name with every occurrence of `".pdf"`
removed (which is the filename without its extension for the usual
`X.pdf` names), and no sequence of page merges ever overwrites it. -/
theorem claim_C9 (docName sectionTitle : String) (pages : List Page) :
    dlookup (extractSection docName sectionTitle pages) "name"
      = some (Value.str (pdfStem docName)) := by
  unfold extractSection
  exact foldl_pageStep_name sectionTitle pages _ (pdfStem docName) (by simp [dlookup])

/-- Claim C10: when the same cleaned line occurs as the key of two
completed pairs at even indices, the later pair silently overwrites the
earlier one with no derived conflict key: the fragment maps the key to
the value of its last completed pair.  The decomposition makes the
second shown occurrence the last completed pair with that key (`a` and
`b` are arbitrary even-length line segments, so earlier pairs may reuse
the key and the key may also reappear as a value anywhere; `c` is any
suffix none of whose completed pairs reuses the key — a trailing
unpaired occurrence of the key in `c` is allowed, since the final
empty-value rule never overwrites a populated key). -/
theorem claim_C10 (text : String) (a b c : List String) (k v1 v2 : String)
    (hsplit : cleanLines text = a ++ k :: v1 :: (b ++ k :: v2 :: c))
    (ha : a.length % 2 = 0) (hb : b.length % 2 = 0)
    (hc : ∀ m ∈ List.range c.length, m % 2 = 0 → m + 1 < c.length → c.getD m "" ≠ k)
    (hconf : (k ++ "_conflict") ∉ cleanLines text) :
    dlookup (processTextBlock text) k = some (Value.str v2) ∧
    dlookup (processTextBlock text) (k ++ "_conflict") = none := by
  rw [processTextBlock_eq_pairSeq]
  constructor
  · rw [hsplit, pairSeq_append_even a _ [] ha]
    simp only [pairSeq]
    rw [pairSeq_append_even b _ _ hb]
    simp only [pairSeq]
    rw [pairSeq_lookup_of_isSome c _ k
      (fun m hm hmlt => hc m (List.mem_range.mpr (by omega)) hm hmlt)
      (by rw [dlookup_pySet_self]; rfl)]
    exact dlookup_pySet_self _ _ _
  · rw [hsplit] at hconf ⊢
    exact pairSeq_lookup_none _ [] _ hconf rfl

/-- Witness for C10: six cleaned lines with the duplicated key followed
by a further unrelated pair, and a second instance where the key also
occurs as a value between the two pairs. -/
theorem claim_C10_witness :
    (dlookup (processTextBlock "K\n1\nK\n2\nB\n3") "K" = some (Value.str "2") ∧
     dlookup (processTextBlock "K\n1\nK\n2\nB\n3") ("K" ++ "_conflict") = none) ∧
    (dlookup (processTextBlock "K\na\nX\nK\nK\nb") "K" = some (Value.str "b") ∧
     dlookup (processTextBlock "K\na\nX\nK\nK\nb") ("K" ++ "_conflict") = none) :=
  ⟨claim_C10 "K\n1\nK\n2\nB\n3" [] [] ["B", "3"] "K" "1" "2" (by decide) rfl rfl
    (by decide) (by decide),
   claim_C10 "K\na\nX\nK\nK\nb" [] ["X", "K"] [] "K" "a" "b" (by decide) rfl rfl
    (by decide) (by decide)⟩

/-- Claim C2: a page whose text has a line matching the section pattern
but no later line matching the base pattern yields boundaries with an
absent stop marker; no region is computed, no content is extracted, and
`extract_section` skips the page and continues with the next one.  The
hypothesis `hsearch` records the behaviour of the external search
primitive on the absent (None) needle: it yields no rectangles. -/
theorem claim_C2 (docName sectionTitle : String) (pre suf : List Page) (page : Page)
    (hbound : ∃ s, findSectionBoundaries sectionTitle page.text = some (s, none))
    (hsearch : page.search none = []) :
    extractSection docName sectionTitle (pre ++ page :: suf)
      = extractSection docName sectionTitle (pre ++ suf) := by
  rcases hbound with ⟨s, hb⟩
  have hskip : ∀ r : Dict, pageStep sectionTitle r page = r := by
    intro r
    unfold pageStep
    by_cases hm : patternSearch sectionTitle page.text
    · rw [if_pos hm, hb]
      dsimp only
      rw [calcSubsectionBbox_noStop page.search page.width s hsearch]
    · rw [if_neg hm]
  unfold extractSection
  rw [List.foldl_append, List.foldl_append, List.foldl_cons, hskip]

/-- Witness for C2: a concrete one-page document with a start marker and
no stop marker is skipped. -/
theorem claim_C2_witness :
    (∃ s, findSectionBoundaries "Section 14" pageNoStop.text = some (s, none)) ∧
    extractSection "doc.pdf" "Section 14" ([] ++ pageNoStop :: [])
      = extractSection "doc.pdf" "Section 14" ([] ++ []) :=
  ⟨⟨"SECTION 14 shipping info", by decide⟩,
   claim_C2 "doc.pdf" "Section 14" [] [] pageNoStop
    ⟨"SECTION 14 shipping info", by decide⟩ rfl⟩

/-- Claim C3, checked against the code: a document in which no page
matches the section pattern produces the record holding exactly the
`name` field; contrary to the claim, `main` then finds the record
truthy (the seeded `name` makes it non-empty), exports the CSV and
exits 0 instead of exiting 1; the `No data extracted` branch of `main`
is unreachable. -/
theorem claim_C3 (docName sectionTitle : String) (pages : List Page)
    (h : ∀ p ∈ pages, patternSearch sectionTitle p.text = false) :
    extractSection docName sectionTitle pages
      = [("name", Value.str (pdfStem docName))] ∧
    mainOutcome (extractSection docName sectionTitle pages) = (true, 0) := by
  have he : extractSection docName sectionTitle pages
      = [("name", Value.str (pdfStem docName))] := by
    unfold extractSection
    exact foldl_pageStep_const sectionTitle pages _ h
  exact ⟨he, by rw [he]; simp [mainOutcome]⟩

/-- Witness for C3: a concrete one-page document without the section
label, evaluated through the CLI branch. -/
theorem claim_C3_witness :
    extractSection "doc.pdf" "Section 14" [pageNoMatch]
      = [("name", Value.str (pdfStem "doc.pdf"))] ∧
    mainOutcome (extractSection "doc.pdf" "Section 14" [pageNoMatch]) = (true, 0) :=
  claim_C3 "doc.pdf" "Section 14" [pageNoMatch] (by decide)

/-- Claim C7: `_calculate_subsection_bbox` returns no region exactly
when either marker search yields zero rectangles, and otherwise the
region with left edge 0, top the bottom edge of the first start
rectangle, right the page width and bottom the top edge of the first
stop rectangle, with no requirement that the region be non-degenerate
(the second part holds with no ordering hypothesis on the edges). -/
theorem claim_C7 (search : Option String → List Rect) (w : Rat) (startM stopM : String) :
    ((search (some startM) = [] ∨ search (some stopM) = []) →
      calcSubsectionBbox search w startM (some stopM) = none) ∧
    (∀ s ss t ts, search (some startM) = s :: ss → search (some stopM) = t :: ts →
      calcSubsectionBbox search w startM (some stopM)
        = some { x0 := 0, y0 := s.y1, x1 := w, y1 := t.y0 }) := by
  constructor
  · rintro (h | h)
    · simp [calcSubsectionBbox, h]
    · rcases hs : search (some startM) with _ | ⟨a, as⟩ <;>
        simp [calcSubsectionBbox, hs, h]
  · intro s ss t ts hs ht
    simp [calcSubsectionBbox, hs, ht]

/-- Witness for C7: the fixture search misses a needle (no region) and
hits both fixture needles, producing a degenerate region (top 5 below
bottom 2) that is still returned. -/
theorem claim_C7_witness :
    calcSubsectionBbox searchFixture 100 "start" (some "other") = none ∧
    calcSubsectionBbox searchFixture 100 "start" (some "stop")
      = some { x0 := 0, y0 := 5, x1 := 100, y1 := 2 } :=
  ⟨(claim_C7 searchFixture 100 "start" "other").1 (Or.inr (by decide)),
   (claim_C7 searchFixture 100 "start" "stop").2
     { x0 := 1, y0 := 2, x1 := 3, y1 := 5 } []
     { x0 := 0, y0 := 2, x1 := 4, y1 := 6 } [] (by decide) (by decide)⟩

/-- Claim C8: a text block whose rectangle intersects the bounding box
of any table extracted in the same region contributes nothing to the
page fragment, whatever its text: removing such a block from the block
list leaves the fragment unchanged. -/
theorem claim_C8 (tables : List (Rect × List (List String)))
    (b1 b2 : List (Rect × String)) (blk : Rect × String)
    (h : ∃ t ∈ tables, intersects blk.1 t.1 = true) :
    processPageContentCore tables (b1 ++ blk :: b2)
      = processPageContentCore tables (b1 ++ b2) := by
  rcases h with ⟨t, ht, hint⟩
  unfold processPageContentCore
  have hz : (tables.foldl (fun acc t => (mergeData acc.1 (processTable t.2), acc.2 ++ [t.1]))
      (([] : Dict), ([] : List Rect))).2 = tables.map Prod.fst := by
    simpa using tablesFold_zones tables [] []
  simp only [hz]
  have hany : ((tables.map Prod.fst).any fun z => intersects blk.1 z) = true := by
    rw [List.any_eq_true]
    exact ⟨t.1, List.mem_map_of_mem _ ht, hint⟩
  rw [List.foldl_append, List.foldl_append, List.foldl_cons]
  rw [hany]
  simp

/-- Witness for C8: a concrete page region with one table and one
overlapping text block full of parseable key/value lines. -/
theorem claim_C8_witness :
    processPageContentCore [({ x0 := 0, y0 := 0, x1 := 10, y1 := 10 }, [["H"], ["v"]])]
      ([] ++ ({ x0 := 1, y0 := 1, x1 := 2, y1 := 2 }, "Key\nVal") :: [])
      = processPageContentCore [({ x0 := 0, y0 := 0, x1 := 10, y1 := 10 }, [["H"], ["v"]])]
      ([] ++ []) :=
  claim_C8 [({ x0 := 0, y0 := 0, x1 := 10, y1 := 10 }, [["H"], ["v"]])] [] []
    ({ x0 := 1, y0 := 1, x1 := 2, y1 := 2 }, "Key\nVal")
    ⟨({ x0 := 0, y0 := 0, x1 := 10, y1 := 10 }, [["H"], ["v"]]), by decide⟩

/-- Claim C6: `_process_table` returns the empty fragment for grids of
fewer than two rows; otherwise (for the rectangular grids produced by
table extraction, assuming the nonempty normalized headers are
distinct) it maps each nonempty normalized header to the ordered list
of the normalized cells of its column, and every key of the fragment is
a nonempty normalized header (empty headers and their columns are
dropped). -/
theorem claim_C6 (data : List (List String)) :
    (data.length < 2 → processTable data = []) ∧
    (∀ row0 rest, data = row0 :: rest → rest ≠ [] →
      (∀ r ∈ data, r.length = row0.length) →
      (∀ j1 ∈ List.range row0.length, ∀ j2 ∈ List.range row0.length,
        normalizeWS (row0.getD j1 "") ≠ "" →
        normalizeWS (row0.getD j1 "") = normalizeWS (row0.getD j2 "") → j1 = j2) →
      (∀ j, j < row0.length → normalizeWS (row0.getD j "") ≠ "" →
        dlookup (processTable data) (normalizeWS (row0.getD j ""))
          = some (Value.list (rest.map (fun r => normalizeWS (r.getD j ""))))) ∧
      (∀ k, (dlookup (processTable data) k).isSome →
        k ≠ "" ∧ k ∈ row0.map normalizeWS)) := by
  constructor
  · intro h
    simp [processTable, h]
  · intro row0 rest hdata hrest hrect hdist
    subst hdata
    have hlen : ¬ (row0 :: rest).length < 2 := by
      cases rest with
      | nil => exact absurd rfl hrest
      | cons r rs => simp only [List.length_cons]; omega
    have hPT : processTable (row0 :: rest)
        = dictComp ((row0.map normalizeWS).zip (zipCols rest)) := by
      unfold processTable
      rw [if_neg hlen]
    have hrect2 : ∀ r ∈ rest, r.length = row0.length :=
      fun r hr => hrect r (List.mem_cons_of_mem _ hr)
    have hcl : (zipCols rest).length = row0.length :=
      zipCols_length rest row0.length hrest hrect2
    have hhl : (row0.map normalizeWS).length = row0.length := by simp
    have hpl : ((row0.map normalizeWS).zip (zipCols rest)).length = row0.length := by
      rw [List.length_zip, hhl, hcl, min_self]
    have hentry : ∀ j, j < row0.length →
        ((row0.map normalizeWS).zip (zipCols rest))[j]?
          = some (normalizeWS (row0.getD j ""), rest.map (fun r => r.getD j "")) := by
      intro j hj
      rw [List.getElem?_zip_eq_some]
      constructor
      · rw [List.getElem?_map, List.getElem?_eq_getElem hj,
          List.getD_eq_getElem row0 "" hj]
        rfl
      · exact zipCols_getElem rest row0.length j hrest hrect2 hj
    constructor
    · intro j hj hne
      rw [hPT]
      have hjp : j < ((row0.map normalizeWS).zip (zipCols rest)).length := by
        rw [hpl]; exact hj
      have hget : ((row0.map normalizeWS).zip (zipCols rest))[j]
          = (normalizeWS (row0.getD j ""), rest.map (fun r => r.getD j "")) := by
        have := hentry j hj
        rw [List.getElem?_eq_getElem hjp] at this
        exact Option.some.inj this
      have hdecomp : (row0.map normalizeWS).zip (zipCols rest)
          = ((row0.map normalizeWS).zip (zipCols rest)).take j
            ++ (normalizeWS (row0.getD j ""), rest.map (fun r => r.getD j ""))
            :: ((row0.map normalizeWS).zip (zipCols rest)).drop (j + 1) := by
        calc (row0.map normalizeWS).zip (zipCols rest)
            = ((row0.map normalizeWS).zip (zipCols rest)).take j
              ++ ((row0.map normalizeWS).zip (zipCols rest)).drop j := by
                rw [List.take_append_drop]
          _ = _ := by rw [List.drop_eq_getElem_cons hjp, hget]
      have hlater : ∀ q ∈ ((row0.map normalizeWS).zip (zipCols rest)).drop (j + 1),
          q.1 ≠ normalizeWS (row0.getD j "") := by
        intro q hq
        rcases List.mem_iff_getElem.mp hq with ⟨i, hi, hqi⟩
        have hlend : (((row0.map normalizeWS).zip (zipCols rest)).drop (j + 1)).length
            = ((row0.map normalizeWS).zip (zipCols rest)).length - (j + 1) :=
          List.length_drop _ _
        have hidx : j + 1 + i < row0.length := by
          rw [hlend, hpl] at hi; omega
        have hjq : j + 1 + i < ((row0.map normalizeWS).zip (zipCols rest)).length := by
          rw [hpl]; exact hidx
        have hq2 : q = ((row0.map normalizeWS).zip (zipCols rest))[j + 1 + i] := by
          rw [← hqi, List.getElem_drop]
        have hq3 : ((row0.map normalizeWS).zip (zipCols rest))[j + 1 + i]
            = (normalizeWS (row0.getD (j + 1 + i) ""),
               rest.map (fun r => r.getD (j + 1 + i) "")) := by
          have := hentry (j + 1 + i) hidx
          rw [List.getElem?_eq_getElem hjq] at this
          exact Option.some.inj this
        intro hqe
        have h1 : q.1 = normalizeWS (row0.getD (j + 1 + i) "") := by rw [hq2, hq3]
        rw [h1] at hqe
        have := hdist j (List.mem_range.mpr hj) (j + 1 + i) (List.mem_range.mpr hidx)
          hne hqe.symm
        omega
      have h1 : dictComp ((row0.map normalizeWS).zip (zipCols rest))
          = ((((row0.map normalizeWS).zip (zipCols rest)).take j
            ++ (normalizeWS (row0.getD j ""), rest.map (fun r => r.getD j ""))
            :: ((row0.map normalizeWS).zip (zipCols rest)).drop (j + 1)).foldl
              dictStep []) := by
        rw [← hdecomp]; rfl
      rw [h1, dictFold_at _ _ _ _ _ hne hlater, List.map_map]
      rfl
    · intro k hk
      rw [hPT] at hk
      rcases dictFold_keys ((row0.map normalizeWS).zip (zipCols rest)) [] k hk
        with hd | ⟨hne2, hmem⟩
      · simp [dlookup] at hd
      · refine ⟨hne2, ?_⟩
        have hfst : ((row0.map normalizeWS).zip (zipCols rest)).map Prod.fst
            = row0.map normalizeWS := by
          apply List.map_fst_zip
          rw [hhl, hcl]
        rwa [hfst] at hmem

/-- Witness for C6: a one-row grid is discarded; a rectangular grid with
two data rows maps header A to its normalized column. -/
theorem claim_C6_witness :
    processTable [["A", "B"]] = [] ∧
    dlookup (processTable [["A", "B"], ["x", " y "], ["u", "v"]])
        (normalizeWS ((["A", "B"] : List String).getD 0 ""))
      = some (Value.list ([["x", " y "], ["u", "v"]].map (fun r => normalizeWS (r.getD 0 "")))) :=
  ⟨(claim_C6 [["A", "B"]]).1 (by decide),
   ((claim_C6 [["A", "B"], ["x", " y "], ["u", "v"]]).2 ["A", "B"] [["x", " y "], ["u", "v"]]
      rfl (by decide) (by decide) (by decide)).1 0 (by decide) (by decide)⟩
